import Mathlib

/-!
Shallow embedding of the `gc_shadowstack` shadow-stack library
(`src/src/lib.rs`, macro `gc_shadowstack!`, instantiated as in
`src/examples/simple.rs` with names `ShadowStack`, `Rootable`, `Root`,
`Handle`, `letroot`).

The library maintains a singly linked list of stack-allocated root
entries.  Each raw entry (`RawShadowStackEntry`) holds a back-pointer
to the owning stack, a `prev` pointer to the previously pushed entry
(null when none), a vtable word, and the payload stored inline right
after the header.  We model the machine stack memory that holds the
entries as an association list from addresses (`Nat`, with `0` playing
the role of the null pointer) to entries, and the shadow stack as its
`head` address together with that memory and a fresh-address counter
(entries live at pairwise distinct stack addresses).  The payload type
is a parameter `V` (the type-erased `dyn Rootable` view: the vtable
word is kept as data, as in the Rust entry layout).
-/

/-- Addresses of raw entries on the machine stack; `0` is the null pointer. -/
abbrev Addr := Nat

/-- Model address of the `ShadowStack` value itself, stored in each
entry's `stack` back-pointer field (`stack: *mut $name` in the source). -/
def stackPtr : Addr := 1

/-- `Raw ShadowStack Entry` from the source: `stack` back-pointer, `prev`
link, `vtable` word and the payload stored inline (`data_start`). -/
structure RawShadowStackEntry (V : Type) where
  stack : Addr
  prev : Addr
  vtable : Nat
  value : V
  deriving DecidableEq

/-- The machine-stack memory holding raw entries, addressed by `Addr`. -/
abbrev Mem (V : Type) := List (Addr × RawShadowStackEntry V)

/-- Read the entry stored at address `a` (dereference a `*mut RawShadowStackEntry`). -/
def lookupEntry {V : Type} : Mem V → Addr → Option (RawShadowStackEntry V)
  | [], _ => none
  | p :: ps, a => if p.1 = a then some p.2 else lookupEntry ps a

/-- Overwrite the payload stored inline at address `a`, leaving the
`stack`, `prev` and `vtable` header fields untouched.  This is the
effect of writing through `get_dyn`'s `&mut dyn` view or through a
mutable handle: only the value bytes after the header change. -/
def setValue {V : Type} : Mem V → Addr → V → Mem V
  | [], _, _ => []
  | p :: ps, a, w =>
    if p.1 = a then (p.1, { p.2 with value := w }) :: ps else p :: setValue ps a w

/-- The `ShadowStack` state: the `head` cell (address of the most
recently pushed live entry, `0` for null) together with the machine
stack memory holding the entries and a fresh-address allocator that
models taking the address of a new stack local in `letroot!`. -/
structure ShadowStack (V : Type) where
  head : Addr
  mem : Mem V
  nextAddr : Addr
  deriving DecidableEq

/-- `ShadowStack::new`: `head = null`, no entries exist, no allocation. -/
def ShadowStack.new (V : Type) : ShadowStack V :=
  { head := 0, mem := [], nextAddr := 2 }

/-- The loop body of `ShadowStack::walk`, fuelled.  Source:
`let mut head = *self.head.as_ptr(); while !head.is_null() { let next =
(*head).prev; visitor((*head).get_dyn()); head = next; }`.
The visitor is modelled as a state-threading function `f acc v = (acc2, v2)`:
it observes the current payload `v` through `get_dyn` and may overwrite it
in place with `v2` (the `&mut dyn` view aliases the entry's inline storage,
so the write lands in the entry's memory via `setValue`).  `next` is read
before the visitor runs, exactly as in the source. -/
def walkAux {V σ : Type} (f : σ → V → σ × V) :
    Nat → Addr → Mem V → σ → Mem V × σ
  | 0, _, mem, acc => (mem, acc)
  | fuel + 1, h, mem, acc =>
    if h = 0 then (mem, acc)
    else
      match lookupEntry mem h with
      | none => (mem, acc)
      | some e =>
        let next := e.prev
        let r := f acc e.value
        walkAux f fuel next (setValue mem h r.2) r.1

/-- `ShadowStack::walk(visitor)`: run the traversal loop from the current
`head`.  `fuel` bounds the number of loop iterations; every theorem
supplies fuel at least the length of the prev-chain, so the bound is
never hit on a well-formed list. -/
def ShadowStack.walk {V σ : Type} (s : ShadowStack V) (f : σ → V → σ × V)
    (fuel : Nat) (acc : σ) : ShadowStack V × σ :=
  let r := walkAux f fuel s.head s.mem acc
  ({ s with mem := r.1 }, r.2)

/-- A visitor that records each visited payload (in visit order) and
writes it back unchanged: `visitor(value) { order.push(value) }`. -/
def collectVisitor {V : Type} : List V → V → List V × V :=
  fun acc v => (acc ++ [v], v)

/-- A visitor that overwrites each visited payload in place through the
`&mut dyn` view: `visitor(value) { *value = g(*value) }`. -/
def mapVisitor {V : Type} (g : V → V) : Unit → V → Unit × V :=
  fun _ v => ((), g v)

/-- `letroot!(x = stack, value)`: capture `prev = stack.head.get()`,
build the `Internal` record `{ stack, prev, vtable, value }` in a fresh
stack slot (its address is `nextAddr`), then `stack.head.set(&mut x)`.
Returns the new state and the guard's entry address. -/
def letroot {V : Type} (s : ShadowStack V) (vt : Nat) (v : V) :
    ShadowStack V × Addr :=
  let a := s.nextAddr
  let e : RawShadowStackEntry V :=
    { stack := stackPtr, prev := s.head, vtable := vt, value := v }
  ({ head := a, mem := (a, e) :: s.mem, nextAddr := a + 1 }, a)

/-- `Drop for Internal`: `(*self.stack).head.set(self.prev)`.  The guard
is identified by its entry address `a`; `self.prev` is the `prev` field
stored in the guard's own record.  Nothing else changes: `Drop` does not
deallocate and touches no other entry. -/
def dropGuard {V : Type} (s : ShadowStack V) (a : Addr) : ShadowStack V :=
  match lookupEntry s.mem a with
  | none => s
  | some e => { s with head := e.prev }

/-- Dereference a live root guard (`Deref for Root`, reading
`self.pinned.value`, the payload stored inline in the guard's entry).
`Handle` and `HandleMut` borrow this same payload, so reading through
them is the same memory read. -/
def readRoot {V : Type} (s : ShadowStack V) (a : Addr) : Option V :=
  (lookupEntry s.mem a).map (fun e => e.value)

/-- `HandleMut::set(value)`: `core::mem::replace(self.value, value)` —
store the new payload in the guard's inline storage and return the old
payload by move.  `none` never arises for a live handle (its guard's
entry is present). -/
def setHandle {V : Type} (s : ShadowStack V) (a : Addr) (v : V) :
    ShadowStack V × Option V :=
  match lookupEntry s.mem a with
  | none => (s, none)
  | some e => ({ s with mem := setValue s.mem a v }, some e.value)

/-- The prev-chain of the list: `Chain mem h l` holds when following
`prev` pointers from `h` visits exactly the addresses in `l` (in order)
and ends at the null pointer.  A well-formed shadow-stack list is one
whose head has such a chain; a cyclic or dangling list has none. -/
inductive Chain {V : Type} (mem : Mem V) : Addr → List Addr → Prop where
  | nil : Chain mem 0 []
  | cons {a : Addr} {e : RawShadowStackEntry V} {l : List Addr} :
      a ≠ 0 → lookupEntry mem a = some e → Chain mem e.prev l →
      Chain mem a (a :: l)

/-- The payloads stored at a list of entry addresses, in order. -/
def entryValues {V : Type} (mem : Mem V) (l : List Addr) : List V :=
  l.filterMap (fun a => (lookupEntry mem a).map (fun e => e.value))

/-- Addresses used by live entries are nonzero and below the allocator
counter; the counter is positive.  Holds for every state reachable from
`ShadowStack.new` and makes fresh addresses genuinely fresh. -/
def memBound {V : Type} (s : ShadowStack V) : Prop :=
  0 < s.nextAddr ∧ ∀ p ∈ s.mem, p.1 ≠ 0 ∧ p.1 < s.nextAddr

/-- A scoped rooting event: `push` is a `letroot!` declaration, `pop` is
the scope exit of the most recently declared still-live guard (its
`Drop`).  Restricting `pop` to the innermost live guard is exactly the
scope-nesting discipline the spec demands. -/
inductive Op (V : Type) where
  | push (vt : Nat) (v : V)
  | pop

/-- Run a well-nested sequence of rooting events from a state, threading
the list of currently-live guard addresses (most recently created
first).  `none` means the sequence pops with no live guard, which a
well-nested program cannot do. -/
def execOps {V : Type} :
    ShadowStack V → List Addr → List (Op V) → Option (ShadowStack V × List Addr)
  | s, live, [] => some (s, live)
  | s, live, Op.push vt v :: ops =>
    let r := letroot s vt v
    execOps r.1 (r.2 :: live) ops
  | s, live, Op.pop :: ops =>
    match live with
    | [] => none
    | a :: rest => execOps (dropGuard s a) rest ops

/-- C3: `letroot` builds an entry whose `prev` is the head at the moment
of declaration, stores the value inline together with its descriptor
(and the back-pointer to the stack), and sets `head` to the new entry's
address; the postcondition is that the stack's head is the new guard's
entry. -/
theorem letroot_pushes_entry {V : Type} (s : ShadowStack V) (vt : Nat) (v : V) :
    (letroot s vt v).1.head = (letroot s vt v).2 ∧
      lookupEntry (letroot s vt v).1.mem (letroot s vt v).2 =
        some { stack := stackPtr, prev := s.head, vtable := vt, value := v } := by
  constructor
  · rfl
  · simp [letroot, lookupEntry]

/-- C4: dropping a live root guard sets the owning stack's head to the
guard's stored `prev` pointer, unconditionally — whatever the current
head and whatever the guard's payload — and changes nothing else
(memory and allocator are untouched). -/
theorem dropGuard_restores_prev {V : Type} (s : ShadowStack V) (a : Addr)
    (e : RawShadowStackEntry V) (h : lookupEntry s.mem a = some e) :
    (dropGuard s a).head = e.prev ∧ (dropGuard s a).mem = s.mem ∧
      (dropGuard s a).nextAddr = s.nextAddr := by
  simp [dropGuard, h]

/-- C4 witness: a stack whose head is `7` and a guard at address `3`
with payload `10` and `prev = 2`; dropping the guard sets head to `2`
even though the current head is unrelated to the guard. -/
theorem dropGuard_restores_prev_witness :
    (dropGuard
        { head := 7,
          mem := [(3, { stack := stackPtr, prev := 2, vtable := 5, value := 10 })],
          nextAddr := 8 } 3).head = 2 ∧
      (dropGuard
        { head := 7,
          mem := [(3, { stack := stackPtr, prev := 2, vtable := 5, value := 10 })],
          nextAddr := 8 } 3).mem =
        [(3, { stack := stackPtr, prev := 2, vtable := 5, value := (10 : Nat) })] ∧
      (dropGuard
        { head := 7,
          mem := [(3, { stack := stackPtr, prev := 2, vtable := 5, value := 10 })],
          nextAddr := 8 } 3).nextAddr = 8 :=
  dropGuard_restores_prev
    { head := 7,
      mem := [(3, { stack := stackPtr, prev := 2, vtable := 5, value := (10 : Nat) })],
      nextAddr := 8 } 3
    { stack := stackPtr, prev := 2, vtable := 5, value := 10 } (by decide)

/-- C8: `new()` returns the empty stack: `head` is null, no entries
exist (nothing was allocated, on the heap or otherwise), and a `walk`
with any visitor, any fuel and any accumulator performs zero visitor
invocations and leaves the state unchanged. -/
theorem new_is_empty (V : Type) :
    (ShadowStack.new V).head = 0 ∧ (ShadowStack.new V).mem = [] ∧
      ∀ (σ : Type) (f : σ → V → σ × V) (fuel : Nat) (acc : σ),
        (ShadowStack.new V).walk f fuel acc = (ShadowStack.new V, acc) := by
  refine ⟨rfl, rfl, ?_⟩
  intro σ f fuel acc
  cases fuel <;> rfl

/-- Reading after a payload write: the write changes only the value
field at the written address and nothing anywhere else. -/
theorem lookupEntry_setValue {V : Type} (mem : Mem V) (a : Addr) (w : V) (b : Addr) :
    lookupEntry (setValue mem a w) b =
      if b = a then (lookupEntry mem a).map (fun e => { e with value := w })
      else lookupEntry mem b := by
  induction mem with
  | nil => simp [setValue, lookupEntry]
  | cons p ps ih =>
    by_cases hpa : p.1 = a
    · by_cases hba : b = a
      · simp [setValue, lookupEntry, hpa, hba]
      · have hab : ¬a = b := fun h => hba h.symm
        simp [setValue, lookupEntry, hpa, hba, hab]
    · by_cases hpb : p.1 = b
      · have hba : ¬b = a := fun h => hpa (h ▸ hpb)
        simp [setValue, lookupEntry, hpa, hpb, hba]
      · simp [setValue, lookupEntry, hpa, hpb, ih]

/-- Writing back the payload an address already holds changes nothing. -/
theorem setValue_self {V : Type} (mem : Mem V) (a : Addr)
    (e : RawShadowStackEntry V) (h : lookupEntry mem a = some e) :
    setValue mem a e.value = mem := by
  induction mem with
  | nil => rfl
  | cons p ps ih =>
    obtain ⟨pa, s1, p1, v1, w1⟩ := p
    by_cases hpa : pa = a
    · simp [lookupEntry, hpa] at h
      simp [setValue, hpa, ← h]
    · simp [lookupEntry, hpa] at h
      simp [setValue, hpa, ih h]

/-- Payload writes preserve the prev-chain: `setValue` keeps every
`prev` field, so the list structure is untouched. -/
theorem chain_setValue {V : Type} {mem : Mem V} {h : Addr} {l : List Addr}
    (hc : Chain mem h l) (a : Addr) (w : V) :
    Chain (setValue mem a w) h l := by
  induction hc with
  | nil => exact Chain.nil
  | cons hb hl hrest ih =>
    rename_i b e l2
    by_cases hba : b = a
    · have h2 : lookupEntry (setValue mem a w) b = some { e with value := w } := by
        rw [lookupEntry_setValue, if_pos hba, ← hba, hl]
        rfl
      exact Chain.cons hb h2 ih
    · refine Chain.cons hb ?_ ih
      rw [lookupEntry_setValue, if_neg hba]
      exact hl

/-- Every address on a chain is the address of a live entry. -/
theorem Chain.lookup_isSome {V : Type} {mem : Mem V} {h : Addr} {l : List Addr}
    (hc : Chain mem h l) {b : Addr} (hb : b ∈ l) :
    (lookupEntry mem b).isSome := by
  induction hc with
  | nil => cases hb
  | cons _ hl _ ih =>
    rcases List.mem_cons.mp hb with h1 | h2
    · subst h1; simp [hl]
    · exact ih h2

/-- The chain from a given address is unique: `prev` pointers are read
from memory, so traversal is deterministic. -/
theorem Chain.deterministic {V : Type} {mem : Mem V} {h : Addr}
    {l1 l2 : List Addr} (hc1 : Chain mem h l1) (hc2 : Chain mem h l2) :
    l1 = l2 := by
  induction hc1 generalizing l2 with
  | nil =>
    cases hc2 with
    | nil => rfl
    | cons hb _ _ => exact absurd rfl hb
  | cons hb hl _ ih =>
    cases hc2 with
    | nil => exact absurd rfl hb
    | cons hb2 hl2 hrest2 =>
      rw [hl] at hl2
      cases hl2
      rw [ih hrest2]

/-- Every member of a chain starts a chain that is a suffix of it. -/
theorem Chain.suffix_of_mem {V : Type} {mem : Mem V} {h : Addr} {l : List Addr}
    (hc : Chain mem h l) {b : Addr} (hb : b ∈ l) :
    ∃ t, Chain mem b (b :: t) ∧ (b :: t) <:+ l := by
  induction hc with
  | nil => cases hb
  | cons ha hl hrest ih =>
    rename_i a e l2
    rcases List.mem_cons.mp hb with h1 | h2
    · subst h1
      exact ⟨l2, Chain.cons ha hl hrest, List.suffix_refl _⟩
    · rcases ih h2 with ⟨t, hct, hsuf⟩
      exact ⟨t, hct, hsuf.trans (List.suffix_cons _ _)⟩

/-- A chain never repeats an address: the prev-list is acyclic. -/
theorem Chain.nodup {V : Type} {mem : Mem V} {h : Addr} {l : List Addr}
    (hc : Chain mem h l) : l.Nodup := by
  induction hc with
  | nil => exact List.nodup_nil
  | cons ha hl hrest ih =>
    rename_i a e l2
    refine List.nodup_cons.mpr ⟨?_, ih⟩
    intro hmem
    rcases hrest.suffix_of_mem hmem with ⟨t, hct, hsuf⟩
    have heq : a :: t = a :: l2 := hct.deterministic (Chain.cons ha hl hrest)
    cases heq
    have := hsuf.length_le
    simp at this

/-- Walking from the null pointer does nothing, with any fuel. -/
theorem walkAux_null {V σ : Type} (f : σ → V → σ × V) (fuel : Nat)
    (mem : Mem V) (acc : σ) : walkAux f fuel 0 mem acc = (mem, acc) := by
  cases fuel <;> rfl

/-- One iteration of the walk loop at a live entry: read `next = prev`,
run the visitor on the payload, write the visitor's update back in
place, continue at `next`. -/
theorem walkAux_step {V σ : Type} (f : σ → V → σ × V) (fuel : Nat) (h : Addr)
    (mem : Mem V) (acc : σ) (e : RawShadowStackEntry V) (hh : h ≠ 0)
    (hl : lookupEntry mem h = some e) :
    walkAux f (fuel + 1) h mem acc =
      walkAux f fuel e.prev (setValue mem h (f acc e.value).2) (f acc e.value).1 := by
  simp only [walkAux]
  rw [if_neg hh, hl]

/-- The walk never touches entries that are not on the traversed chain. -/
theorem walk_untouched {V σ : Type} (f : σ → V → σ × V) (l : List Addr) :
    ∀ (mem : Mem V) (h : Addr) (fuel : Nat) (acc : σ) (b : Addr),
      Chain mem h l → l.length ≤ fuel → b ∉ l →
      lookupEntry (walkAux f fuel h mem acc).1 b = lookupEntry mem b := by
  induction l with
  | nil =>
    intro mem h fuel acc b hc _ _
    cases hc
    rw [walkAux_null]
  | cons a l2 ih =>
    intro mem h fuel acc b hc hf hb
    cases hc with
    | cons ha hl hrest =>
      rename_i e
      cases fuel with
      | zero => simp at hf
      | succ fuel2 =>
        have hbne : b ≠ a := fun hcontr => hb (hcontr ▸ List.mem_cons_self a l2)
        have hb2 : b ∉ l2 := fun hcontr => hb (List.mem_cons_of_mem a hcontr)
        rw [walkAux_step f fuel2 a mem acc e ha hl]
        rw [ih _ _ _ _ _ (chain_setValue hrest a _) (by simpa using hf) hb2]
        rw [lookupEntry_setValue, if_neg hbne]

/-- After a walk with the in-place mutating visitor `g`, every entry on
the chain holds `g` of its previous payload (header fields intact). -/
theorem walk_map_lookup {V : Type} (g : V → V) (l : List Addr) :
    ∀ (mem : Mem V) (h : Addr) (fuel : Nat) (b : Addr),
      Chain mem h l → l.length ≤ fuel → b ∈ l →
      lookupEntry (walkAux (mapVisitor g) fuel h mem ()).1 b =
        (lookupEntry mem b).map (fun e => { e with value := g e.value }) := by
  induction l with
  | nil =>
    intro mem h fuel b _ _ hb
    cases hb
  | cons a l2 ih =>
    intro mem h fuel b hc hf hb
    cases hc with
    | cons ha hl hrest =>
      rename_i e
      cases fuel with
      | zero => simp at hf
      | succ fuel2 =>
        have hnd := (Chain.cons ha hl hrest).nodup
        have hanotin : a ∉ l2 := (List.nodup_cons.mp hnd).1
        rw [walkAux_step (mapVisitor g) fuel2 a mem () e ha hl]
        rcases List.mem_cons.mp hb with hba | hb2
        · rw [walk_untouched (mapVisitor g) l2 _ _ _ _ b
            (chain_setValue hrest a _) (by simpa using hf) (hba ▸ hanotin)]
          rw [lookupEntry_setValue, if_pos hba, hba, hl]
          rfl
        · have hbna : b ≠ a := fun hcontr => hanotin (hcontr ▸ hb2)
          rw [ih _ _ _ _ (chain_setValue hrest a _) (by simpa using hf) hb2]
          rw [lookupEntry_setValue, if_neg hbna]

/-- Walking with the collecting visitor leaves memory unchanged and
appends the chain's payloads, in chain order, to the accumulator. -/
theorem walk_collect {V : Type} (l : List Addr) :
    ∀ (mem : Mem V) (h : Addr) (fuel : Nat) (acc : List V),
      Chain mem h l → l.length ≤ fuel →
      walkAux collectVisitor fuel h mem acc = (mem, acc ++ entryValues mem l) := by
  induction l with
  | nil =>
    intro mem h fuel acc hc _
    cases hc
    rw [walkAux_null]
    simp [entryValues]
  | cons a l2 ih =>
    intro mem h fuel acc hc hf
    cases hc with
    | cons ha hl hrest =>
      rename_i e
      cases fuel with
      | zero => simp at hf
      | succ fuel2 =>
        rw [walkAux_step collectVisitor fuel2 a mem acc e ha hl]
        have hvis : (collectVisitor acc e.value).2 = e.value := rfl
        rw [hvis, setValue_self mem a e hl]
        rw [ih mem e.prev fuel2 _ hrest (by simpa using hf)]
        simp [entryValues, collectVisitor, hl]

/-- The walk may change payloads, never the header fields: every entry's
`stack`, `prev` and `vtable` are the same after the loop as before, for
any visitor, fuel, starting address and memory. -/
theorem walk_structure {V σ : Type} (f : σ → V → σ × V) :
    ∀ (fuel : Nat) (h : Addr) (mem : Mem V) (acc : σ) (b : Addr),
      (lookupEntry (walkAux f fuel h mem acc).1 b).map
          (fun e => (e.stack, e.prev, e.vtable)) =
        (lookupEntry mem b).map (fun e => (e.stack, e.prev, e.vtable)) := by
  intro fuel
  induction fuel with
  | zero => intro h mem acc b; rfl
  | succ fuel2 ih =>
    intro h mem acc b
    by_cases hh : h = 0
    · subst hh
      rw [walkAux_null]
    · cases hle : lookupEntry mem h with
      | none =>
        simp only [walkAux]
        rw [if_neg hh, hle]
      | some e =>
        rw [walkAux_step f fuel2 h mem acc e hh hle, ih]
        rw [lookupEntry_setValue]
        by_cases hbh : b = h
        · rw [if_pos hbh, hbh, hle]
          rfl
        · rw [if_neg hbh]

/-- A chain survives pushing a fresh entry in front of the memory, as
long as the fresh address is not on the chain. -/
theorem chain_fresh {V : Type} (a : Addr) (e : RawShadowStackEntry V) :
    ∀ {h : Addr} {l : List Addr} (mem : Mem V),
      Chain mem h l → (∀ b ∈ l, b ≠ a) → Chain ((a, e) :: mem) h l := by
  intro h l mem hc
  induction hc with
  | nil => intro _; exact Chain.nil
  | cons hb hl hrest ih =>
    rename_i b e2 l2
    intro hfresh
    have hab : ¬a = b := fun hcontr => (hfresh b (List.mem_cons_self b l2)) hcontr.symm
    refine Chain.cons hb ?_ (ih fun c hcmem => hfresh c (List.mem_cons_of_mem _ hcmem))
    show lookupEntry ((a, e) :: mem) b = some e2
    simp [lookupEntry, hab, hl]

/-- Reading the payloads of a list of addresses is unaffected by a fresh
entry prepended to the memory. -/
theorem entryValues_fresh {V : Type} (mem : Mem V) (a : Addr)
    (e : RawShadowStackEntry V) :
    ∀ l : List Addr, (∀ b ∈ l, b ≠ a) →
      entryValues ((a, e) :: mem) l = entryValues mem l := by
  intro l
  induction l with
  | nil => intro _; rfl
  | cons c l2 ih =>
    intro hfresh
    have hac : ¬a = c := fun hcontr => (hfresh c (List.mem_cons_self c l2)) hcontr.symm
    have hl : lookupEntry ((a, e) :: mem) c = lookupEntry mem c := by
      simp [lookupEntry, hac]
    have ih2 := ih fun b hb => hfresh b (List.mem_cons_of_mem _ hb)
    simp only [entryValues, List.filterMap_cons, hl]
    simp only [entryValues] at ih2
    rw [ih2]

/-- An address with a live entry is the key of some memory cell. -/
theorem lookupEntry_isSome_mem {V : Type} (mem : Mem V) (b : Addr)
    (h : (lookupEntry mem b).isSome) : ∃ p ∈ mem, p.1 = b := by
  induction mem with
  | nil => simp [lookupEntry] at h
  | cons p ps ih =>
    by_cases hpb : p.1 = b
    · exact ⟨p, List.mem_cons_self _ _, hpb⟩
    · rw [lookupEntry, if_neg hpb] at h
      rcases ih h with ⟨q, hq, hqb⟩
      exact ⟨q, List.mem_cons_of_mem _ hq, hqb⟩

/-- On a bounded state, no chain address collides with the next fresh
address the allocator will hand out. -/
theorem chain_mem_ne_fresh {V : Type} {s : ShadowStack V} {l : List Addr}
    (hc : Chain s.mem s.head l) (hb : memBound s) :
    ∀ b ∈ l, b ≠ s.nextAddr := by
  intro b hbl
  rcases lookupEntry_isSome_mem s.mem b (hc.lookup_isSome hbl) with ⟨p, hp, hpb⟩
  rcases hb with ⟨hb1, hb2⟩
  have h3 : p.1 < s.nextAddr := (hb2 p hp).2
  rw [hpb] at h3
  exact Nat.ne_of_lt h3

/-- Inversion for a nonempty chain: the start is its first address, which
is a live nonzero entry whose `prev` chains through the rest. -/
theorem Chain.cons_inv {V : Type} {mem : Mem V} {h a : Addr} {l : List Addr}
    (hc : Chain mem h (a :: l)) :
    h = a ∧ a ≠ 0 ∧ ∃ e, lookupEntry mem a = some e ∧ Chain mem e.prev l := by
  cases hc with
  | cons ha hl hrest => exact ⟨rfl, ha, _, hl, hrest⟩

/-- The head of a chain is its first address, or null when it is empty. -/
theorem Chain.head_eq {V : Type} {mem : Mem V} {h : Addr} {l : List Addr}
    (hc : Chain mem h l) : h = l.headD 0 := by
  cases hc with
  | nil => rfl
  | cons _ _ _ => rfl

/-- Pushing and popping under the scope discipline preserves the list
invariant: the chain from `head` is exactly the live-guard list, and
addresses stay bounded by the allocator. -/
theorem execOps_invariant {V : Type} (ops : List (Op V)) :
    ∀ (s : ShadowStack V) (live : List Addr) (s2 : ShadowStack V)
      (live2 : List Addr),
      execOps s live ops = some (s2, live2) →
      Chain s.mem s.head live → memBound s →
      Chain s2.mem s2.head live2 ∧ memBound s2 := by
  induction ops with
  | nil =>
    intro s live s2 live2 hex hc hb
    simp [execOps] at hex
    obtain ⟨h1, h2⟩ := hex
    subst h1
    subst h2
    exact ⟨hc, hb⟩
  | cons op ops2 ih =>
    intro s live s2 live2 hex hc hb
    cases op with
    | push vt v =>
      simp only [execOps] at hex
      have hfresh : ∀ b ∈ live, b ≠ s.nextAddr := chain_mem_ne_fresh hc hb
      have hna : s.nextAddr ≠ 0 := Nat.pos_iff_ne_zero.mp hb.1
      refine ih _ _ _ _ hex ?_ ?_
      · have hlook : lookupEntry
            ((s.nextAddr,
                { stack := stackPtr, prev := s.head, vtable := vt, value := v }) ::
              s.mem) s.nextAddr =
            some { stack := stackPtr, prev := s.head, vtable := vt, value := v } := by
          simp [lookupEntry]
        exact Chain.cons hna hlook (chain_fresh _ _ s.mem hc hfresh)
      · unfold memBound
        refine ⟨Nat.succ_pos _, ?_⟩
        intro p hp
        have hp2 : p = (s.nextAddr,
            { stack := stackPtr, prev := s.head, vtable := vt, value := v }) ∨
            p ∈ s.mem := by
          simpa [letroot] using hp
        rcases hp2 with hp1 | hp2
        · subst hp1
          exact ⟨hna, Nat.lt_succ_self _⟩
        · rcases hb with ⟨hb1, hb2⟩
          have h3 := hb2 p hp2
          exact ⟨h3.1, Nat.lt_succ_of_lt h3.2⟩
    | pop =>
      cases live with
      | nil => simp [execOps] at hex
      | cons a rest =>
        simp only [execOps] at hex
        obtain ⟨hha, hane, e, hl, hrest⟩ := Chain.cons_inv hc
        have hdg : dropGuard s a = { s with head := e.prev } := by
          simp [dropGuard, hl]
        refine ih _ _ _ _ hex ?_ ?_
        · rw [hdg]
          exact hrest
        · rw [hdg]
          exact hb

/-- C2: for every sequence of scoped declarations and releases that
respects scope nesting (modelled by `execOps`, whose `pop` always
releases the innermost live guard), at every point — i.e. after every
such sequence, prefixes included — the entries reachable from `head`
via `prev` are exactly the currently-live guards, most recently created
first, and `head` is the most recent live guard's entry (null when no
guard is live). -/
theorem lifo_integrity {V : Type} (ops : List (Op V)) (s : ShadowStack V)
    (live : List Addr)
    (hex : execOps (ShadowStack.new V) [] ops = some (s, live)) :
    Chain s.mem s.head live ∧ s.head = live.headD 0 := by
  have hbnew : memBound (ShadowStack.new V) := by
    unfold memBound
    constructor
    · show (0 : Nat) < 2
      norm_num
    · intro p hp
      simp [ShadowStack.new] at hp
  have hinv := execOps_invariant ops (ShadowStack.new V) [] s live hex Chain.nil hbnew
  exact ⟨hinv.1, hinv.1.head_eq⟩

/-- C2 witness: the trace push A, push B, pop, push C ends with guards C
(at address 4) and A (at address 2) live; the chain from the head is
exactly `[4, 2]` and the head is C's entry. -/
theorem lifo_integrity_witness :
    execOps (ShadowStack.new Nat) []
        [Op.push 5 10, Op.push 6 20, Op.pop, Op.push 7 30] =
      some
        ({ head := 4,
           mem := [(4, { stack := stackPtr, prev := 2, vtable := 7, value := 30 }),
                   (3, { stack := stackPtr, prev := 2, vtable := 6, value := 20 }),
                   (2, { stack := stackPtr, prev := 0, vtable := 5, value := 10 })],
           nextAddr := 5 }, [4, 2]) ∧
      Chain
        [(4, { stack := stackPtr, prev := 2, vtable := 7, value := 30 }),
         (3, { stack := stackPtr, prev := 2, vtable := 6, value := 20 }),
         (2, { stack := stackPtr, prev := 0, vtable := 5, value := (10 : Nat) })]
        4 [4, 2] := by
  refine ⟨by decide, ?_⟩
  have h := lifo_integrity [Op.push 5 10, Op.push 6 20, Op.pop, Op.push 7 30]
    { head := 4,
      mem := [(4, { stack := stackPtr, prev := 2, vtable := 7, value := 30 }),
              (3, { stack := stackPtr, prev := 2, vtable := 6, value := 20 }),
              (2, { stack := stackPtr, prev := 0, vtable := 5, value := (10 : Nat) })],
      nextAddr := 5 } [4, 2] (by decide)
  exact h.1

/-- C1: on a well-formed list (acyclic prev-chain `l` from `head` ending
at null), `walk` invokes the visitor exactly once per entry currently on
the list, starting at `head` and following `prev` until null, so the
recorded visit order is the chain order — most recently rooted first
(roots declared A, B, C are reported C, B, A) — and on an empty stack
(`head` null, chain `[]`) the visitor is invoked zero times. -/
theorem walk_visits_each_entry_once {V : Type} (s : ShadowStack V)
    (l : List Addr) (fuel : Nat) (hc : Chain s.mem s.head l)
    (hf : l.length ≤ fuel) :
    (s.walk collectVisitor fuel []).2 = entryValues s.mem l := by
  show (walkAux collectVisitor fuel s.head s.mem []).2 = entryValues s.mem l
  rw [walk_collect l s.mem s.head fuel [] hc hf]
  simp

/-- C1 witness: roots A=10, B=20, C=30 declared in that order (entries
at addresses 2, 3, 4, head at C); the list is well-formed with chain
`[4, 3, 2]` and the walk reports the payloads in order C, B, A. -/
theorem walk_visits_each_entry_once_witness :
    Chain [(4, { stack := stackPtr, prev := 3, vtable := 9, value := 30 }),
           (3, { stack := stackPtr, prev := 2, vtable := 9, value := 20 }),
           (2, { stack := stackPtr, prev := 0, vtable := 9, value := (10 : Nat) })]
        4 [4, 3, 2] ∧
      ((ShadowStack.mk 4
          [(4, { stack := stackPtr, prev := 3, vtable := 9, value := 30 }),
           (3, { stack := stackPtr, prev := 2, vtable := 9, value := 20 }),
           (2, { stack := stackPtr, prev := 0, vtable := 9, value := (10 : Nat) })]
          5).walk collectVisitor 3 []).2 =
        entryValues
          [(4, { stack := stackPtr, prev := 3, vtable := 9, value := 30 }),
           (3, { stack := stackPtr, prev := 2, vtable := 9, value := 20 }),
           (2, { stack := stackPtr, prev := 0, vtable := 9, value := (10 : Nat) })]
          [4, 3, 2] := by
  have hchain : Chain
      [(4, { stack := stackPtr, prev := 3, vtable := 9, value := 30 }),
       (3, { stack := stackPtr, prev := 2, vtable := 9, value := 20 }),
       (2, { stack := stackPtr, prev := 0, vtable := 9, value := (10 : Nat) })]
      4 [4, 3, 2] :=
    Chain.cons (by decide) rfl
      (Chain.cons (by decide) rfl
        (Chain.cons (by decide) rfl Chain.nil))
  exact ⟨hchain, walk_visits_each_entry_once _ [4, 3, 2] 3 hchain (by decide)⟩

/-- C5: declaring a root (capturing the current head `h` as `prev`) and
then releasing it with nesting respected is the identity on the stack's
head: after the inner scope exits, `head = h` again, and a subsequent
walk visits exactly the roots that were live before the inner
declaration. -/
theorem inner_scope_release_identity {V : Type} (s : ShadowStack V)
    (l : List Addr) (vt : Nat) (v : V) (fuel : Nat)
    (hc : Chain s.mem s.head l) (hb : memBound s) (hf : l.length ≤ fuel) :
    (dropGuard (letroot s vt v).1 (letroot s vt v).2).head = s.head ∧
      ((dropGuard (letroot s vt v).1 (letroot s vt v).2).walk
          collectVisitor fuel []).2 =
        (s.walk collectVisitor fuel []).2 := by
  have hfresh : ∀ b ∈ l, b ≠ s.nextAddr := chain_mem_ne_fresh hc hb
  have hstate : dropGuard (letroot s vt v).1 (letroot s vt v).2 =
      { head := s.head,
        mem := (s.nextAddr,
          { stack := stackPtr, prev := s.head, vtable := vt, value := v }) ::
            s.mem,
        nextAddr := s.nextAddr + 1 } := by
    simp [letroot, dropGuard, lookupEntry]
  rw [hstate]
  refine ⟨rfl, ?_⟩
  have hc2 : Chain ((s.nextAddr,
      { stack := stackPtr, prev := s.head, vtable := vt, value := v }) :: s.mem)
      s.head l := chain_fresh _ _ s.mem hc hfresh
  show (walkAux collectVisitor fuel s.head _ []).2 =
    (walkAux collectVisitor fuel s.head s.mem []).2
  rw [walk_collect l _ s.head fuel [] hc2 hf,
    walk_collect l s.mem s.head fuel [] hc hf]
  simpa using entryValues_fresh s.mem s.nextAddr _ l hfresh

/-- C5 witness: with root A=10 live (entry at 2, head 2), an inner root
B=20 is declared and released; the head is 2 again and the walk reports
only A. -/
theorem inner_scope_release_identity_witness :
    Chain [(2, { stack := stackPtr, prev := 0, vtable := 9, value := (10 : Nat) })]
        2 [2] ∧
      memBound (ShadowStack.mk 2
        [(2, { stack := stackPtr, prev := 0, vtable := 9, value := (10 : Nat) })]
        3) ∧
      ((dropGuard
          (letroot (ShadowStack.mk 2
            [(2, { stack := stackPtr, prev := 0, vtable := 9, value := (10 : Nat) })]
            3) 9 20).1
          (letroot (ShadowStack.mk 2
            [(2, { stack := stackPtr, prev := 0, vtable := 9, value := (10 : Nat) })]
            3) 9 20).2).head =
        (ShadowStack.mk 2
          [(2, { stack := stackPtr, prev := 0, vtable := 9, value := (10 : Nat) })]
          3).head ∧
        ((dropGuard
            (letroot (ShadowStack.mk 2
              [(2, { stack := stackPtr, prev := 0, vtable := 9, value := (10 : Nat) })]
              3) 9 20).1
            (letroot (ShadowStack.mk 2
              [(2, { stack := stackPtr, prev := 0, vtable := 9, value := (10 : Nat) })]
              3) 9 20).2).walk collectVisitor 1 []).2 =
          ((ShadowStack.mk 2
            [(2, { stack := stackPtr, prev := 0, vtable := 9, value := (10 : Nat) })]
            3).walk collectVisitor 1 []).2) := by
  have hchain : Chain
      [(2, { stack := stackPtr, prev := 0, vtable := 9, value := (10 : Nat) })]
      2 [2] := Chain.cons (by decide) rfl Chain.nil
  have hbd : memBound (ShadowStack.mk 2
      [(2, { stack := stackPtr, prev := 0, vtable := 9, value := (10 : Nat) })]
      3) := by
    unfold memBound
    decide
  exact ⟨hchain, hbd,
    inner_scope_release_identity _ [2] 9 20 1 hchain hbd (by decide)⟩

/-- C6: the type-erased view a walk visitor receives aliases the entry's
actual inline storage, not a copy: a walk whose visitor overwrites each
rooted value in place with `g` of it leaves every live root — read
through its Handle/Guard immediately after the walk returns — holding
the mutated value. -/
theorem walk_mutation_visible {V : Type} (s : ShadowStack V) (l : List Addr)
    (g : V → V) (fuel : Nat) (a : Addr) (hc : Chain s.mem s.head l)
    (hf : l.length ≤ fuel) (ha : a ∈ l) :
    readRoot ((s.walk (mapVisitor g) fuel ()).1) a = (readRoot s a).map g := by
  show (lookupEntry (walkAux (mapVisitor g) fuel s.head s.mem ()).1 a).map
      (fun e => e.value) = (readRoot s a).map g
  rw [walk_map_lookup g l s.mem s.head fuel a hc hf ha]
  unfold readRoot
  cases lookupEntry s.mem a <;> rfl

/-- C6 witness: an integer `42` is rooted (entry at 2); a walk visitor
overwrites it to `44`; reading through the guard right after the walk
yields `44` — that is, the mapped old value. -/
theorem walk_mutation_visible_witness :
    Chain [(2, { stack := stackPtr, prev := 0, vtable := 9, value := (42 : Nat) })]
        2 [2] ∧
      readRoot
          (((ShadowStack.mk 2
            [(2, { stack := stackPtr, prev := 0, vtable := 9, value := (42 : Nat) })]
            3).walk (mapVisitor fun _ => 44) 1 ()).1) 2 =
        (readRoot (ShadowStack.mk 2
            [(2, { stack := stackPtr, prev := 0, vtable := 9, value := (42 : Nat) })]
            3) 2).map (fun _ => 44) := by
  have hchain : Chain
      [(2, { stack := stackPtr, prev := 0, vtable := 9, value := (42 : Nat) })]
      2 [2] := Chain.cons (by decide) rfl Chain.nil
  exact ⟨hchain,
    walk_mutation_visible _ [2] (fun _ => 44) 1 2 hchain (by decide)
      (by decide)⟩

/-- C7: `HandleMut::set(v)` on a live handle over payload `old` replaces
the payload with `v` and returns `old` (the previous payload, moved
out); reading afterwards through the handle or its guard yields `v`. -/
theorem handleMut_set_swaps {V : Type} (s : ShadowStack V) (a : Addr) (v : V)
    (e : RawShadowStackEntry V) (h : lookupEntry s.mem a = some e) :
    (setHandle s a v).2 = some e.value ∧
      readRoot (setHandle s a v).1 a = some v := by
  constructor
  · simp [setHandle, h]
  · simp [setHandle, readRoot, h, lookupEntry_setValue]

/-- C7 witness: a handle over payload `42` (entry at 2); `set 44`
returns `42` and the subsequent read yields `44`. -/
theorem handleMut_set_swaps_witness :
    lookupEntry [(2, { stack := stackPtr, prev := 0, vtable := 9, value := (42 : Nat) })] 2 =
        some { stack := stackPtr, prev := 0, vtable := 9, value := (42 : Nat) } ∧
      (setHandle (ShadowStack.mk 2
          [(2, { stack := stackPtr, prev := 0, vtable := 9, value := (42 : Nat) })]
          3) 2 44).2 =
        some ({ stack := stackPtr, prev := 0, vtable := 9, value := (42 : Nat) } :
          RawShadowStackEntry Nat).value ∧
      readRoot (setHandle (ShadowStack.mk 2
          [(2, { stack := stackPtr, prev := 0, vtable := 9, value := (42 : Nat) })]
          3) 2 44).1 2 = some 44 := by
  have h := handleMut_set_swaps (ShadowStack.mk 2
      [(2, { stack := stackPtr, prev := 0, vtable := 9, value := (42 : Nat) })]
      3) 2 44
    { stack := stackPtr, prev := 0, vtable := 9, value := (42 : Nat) } (by decide)
  exact ⟨by decide, h.1, h.2⟩

/-- C9: `walk` is a pure consumer of the list: after it returns, the
stack's head pointer (and allocator) and every entry's `stack`, `prev`
and `vtable` (descriptor) fields are unchanged, for any visitor;
entries not on the walked chain are entirely untouched, so only
payloads of visited entries may differ — exactly those the visitor
rewrote. -/
theorem walk_pure_consumer {V σ : Type} (s : ShadowStack V)
    (f : σ → V → σ × V) (fuel : Nat) (acc : σ) (l : List Addr)
    (hc : Chain s.mem s.head l) (hf : l.length ≤ fuel) :
    (s.walk f fuel acc).1.head = s.head ∧
      (s.walk f fuel acc).1.nextAddr = s.nextAddr ∧
      (∀ b : Addr,
        (lookupEntry (s.walk f fuel acc).1.mem b).map
            (fun e => (e.stack, e.prev, e.vtable)) =
          (lookupEntry s.mem b).map (fun e => (e.stack, e.prev, e.vtable))) ∧
      ∀ b : Addr, b ∉ l →
        lookupEntry (s.walk f fuel acc).1.mem b = lookupEntry s.mem b := by
  refine ⟨rfl, rfl, ?_, ?_⟩
  · intro b
    exact walk_structure f fuel s.head s.mem acc b
  · intro b hb
    exact walk_untouched f l s.mem s.head fuel acc b hc hf hb

/-- C9 witness: a two-root stack walked with a mutating visitor keeps
its head, allocator and all header fields; the entry at the unrelated
address 9 (not on the chain) is untouched. -/
theorem walk_pure_consumer_witness :
    Chain [(3, { stack := stackPtr, prev := 2, vtable := 9, value := 20 }),
           (2, { stack := stackPtr, prev := 0, vtable := 9, value := (10 : Nat) })]
        3 [3, 2] ∧
      (((ShadowStack.mk 3
          [(3, { stack := stackPtr, prev := 2, vtable := 9, value := 20 }),
           (2, { stack := stackPtr, prev := 0, vtable := 9, value := (10 : Nat) })]
          4).walk (mapVisitor fun v => v + 1) 2 ()).1.head =
        (ShadowStack.mk 3
          [(3, { stack := stackPtr, prev := 2, vtable := 9, value := 20 }),
           (2, { stack := stackPtr, prev := 0, vtable := 9, value := (10 : Nat) })]
          4).head ∧
      ((ShadowStack.mk 3
          [(3, { stack := stackPtr, prev := 2, vtable := 9, value := 20 }),
           (2, { stack := stackPtr, prev := 0, vtable := 9, value := (10 : Nat) })]
          4).walk (mapVisitor fun v => v + 1) 2 ()).1.nextAddr =
        (ShadowStack.mk 3
          [(3, { stack := stackPtr, prev := 2, vtable := 9, value := 20 }),
           (2, { stack := stackPtr, prev := 0, vtable := 9, value := (10 : Nat) })]
          4).nextAddr ∧
      (∀ b : Addr,
        (lookupEntry (((ShadowStack.mk 3
            [(3, { stack := stackPtr, prev := 2, vtable := 9, value := 20 }),
             (2, { stack := stackPtr, prev := 0, vtable := 9, value := (10 : Nat) })]
            4).walk (mapVisitor fun v => v + 1) 2 ()).1.mem) b).map
            (fun e => (e.stack, e.prev, e.vtable)) =
          (lookupEntry
            [(3, { stack := stackPtr, prev := 2, vtable := 9, value := 20 }),
             (2, { stack := stackPtr, prev := 0, vtable := 9, value := (10 : Nat) })]
            b).map (fun e => (e.stack, e.prev, e.vtable))) ∧
      ∀ b : Addr, b ∉ [3, 2] →
        lookupEntry (((ShadowStack.mk 3
            [(3, { stack := stackPtr, prev := 2, vtable := 9, value := 20 }),
             (2, { stack := stackPtr, prev := 0, vtable := 9, value := (10 : Nat) })]
            4).walk (mapVisitor fun v => v + 1) 2 ()).1.mem) b =
          lookupEntry
            [(3, { stack := stackPtr, prev := 2, vtable := 9, value := 20 }),
             (2, { stack := stackPtr, prev := 0, vtable := 9, value := (10 : Nat) })]
            b) := by
  have hchain : Chain
      [(3, { stack := stackPtr, prev := 2, vtable := 9, value := 20 }),
       (2, { stack := stackPtr, prev := 0, vtable := 9, value := (10 : Nat) })]
      3 [3, 2] :=
    Chain.cons (by decide) rfl (Chain.cons (by decide) rfl Chain.nil)
  exact ⟨hchain,
    walk_pure_consumer _ (mapVisitor fun v => v + 1) 2 () [3, 2] hchain
      (by decide)⟩

/-- C10: `handle()` and `mut_handle()` alias the guard's own payload:
the handle read is the very same memory read as dereferencing the guard
(both return the payload stored in the guard's entry), a `set` through
the mutable handle is observable through the guard's dereference
immediately afterwards, and neither reading nor writing changes the
stack's head or any entry's `prev` link. -/
theorem handles_alias_guard_payload {V : Type} (s : ShadowStack V) (a : Addr)
    (v : V) (e : RawShadowStackEntry V) (h : lookupEntry s.mem a = some e) :
    readRoot s a = some e.value ∧
      readRoot (setHandle s a v).1 a = some v ∧
      (setHandle s a v).1.head = s.head ∧
      ∀ b : Addr,
        (lookupEntry (setHandle s a v).1.mem b).map (fun e2 => e2.prev) =
          (lookupEntry s.mem b).map (fun e2 => e2.prev) := by
  have hset : (setHandle s a v).1 = { s with mem := setValue s.mem a v } := by
    simp [setHandle, h]
  refine ⟨by simp [readRoot, h], ?_, ?_, ?_⟩
  · rw [hset]
    simp [readRoot, lookupEntry_setValue, h]
  · rw [hset]
  · intro b
    rw [hset]
    show (lookupEntry (setValue s.mem a v) b).map (fun e2 => e2.prev) =
      (lookupEntry s.mem b).map (fun e2 => e2.prev)
    rw [lookupEntry_setValue]
    by_cases hba : b = a
    · rw [if_pos hba, hba, h]
      rfl
    · rw [if_neg hba]

/-- C10 witness: a guard over `42` at entry 2 of a two-root stack;
the guard dereference reads `42`, `set 44` is visible through the guard,
and head and all `prev` links are unchanged by the write. -/
theorem handles_alias_guard_payload_witness :
    lookupEntry [(3, { stack := stackPtr, prev := 2, vtable := 9, value := 7 }),
        (2, { stack := stackPtr, prev := 0, vtable := 9, value := (42 : Nat) })] 2 =
        some { stack := stackPtr, prev := 0, vtable := 9, value := (42 : Nat) } ∧
      (readRoot (ShadowStack.mk 3
          [(3, { stack := stackPtr, prev := 2, vtable := 9, value := 7 }),
           (2, { stack := stackPtr, prev := 0, vtable := 9, value := (42 : Nat) })]
          4) 2 =
        some ({ stack := stackPtr, prev := 0, vtable := 9, value := (42 : Nat) } :
          RawShadowStackEntry Nat).value ∧
      readRoot (setHandle (ShadowStack.mk 3
          [(3, { stack := stackPtr, prev := 2, vtable := 9, value := 7 }),
           (2, { stack := stackPtr, prev := 0, vtable := 9, value := (42 : Nat) })]
          4) 2 44).1 2 = some 44 ∧
      (setHandle (ShadowStack.mk 3
          [(3, { stack := stackPtr, prev := 2, vtable := 9, value := 7 }),
           (2, { stack := stackPtr, prev := 0, vtable := 9, value := (42 : Nat) })]
          4) 2 44).1.head =
        (ShadowStack.mk 3
          [(3, { stack := stackPtr, prev := 2, vtable := 9, value := 7 }),
           (2, { stack := stackPtr, prev := 0, vtable := 9, value := (42 : Nat) })]
          4).head ∧
      ∀ b : Addr,
        (lookupEntry (setHandle (ShadowStack.mk 3
            [(3, { stack := stackPtr, prev := 2, vtable := 9, value := 7 }),
             (2, { stack := stackPtr, prev := 0, vtable := 9, value := (42 : Nat) })]
            4) 2 44).1.mem b).map (fun e2 => e2.prev) =
          (lookupEntry
            [(3, { stack := stackPtr, prev := 2, vtable := 9, value := 7 }),
             (2, { stack := stackPtr, prev := 0, vtable := 9, value := (42 : Nat) })]
            b).map (fun e2 => e2.prev)) := by
  exact ⟨by decide,
    handles_alias_guard_payload (ShadowStack.mk 3
      [(3, { stack := stackPtr, prev := 2, vtable := 9, value := 7 }),
       (2, { stack := stackPtr, prev := 0, vtable := 9, value := (42 : Nat) })]
      4) 2 44
      { stack := stackPtr, prev := 0, vtable := 9, value := (42 : Nat) }
      (by decide)⟩
